import Mathlib

/-!
Verification of the rule-driven bulk field-rename tool (`src/main.rs`).

The development embeds the program's data model and the core algorithms as
executable Lean definitions:

* `AttributeValue` / `AttrMap` — the DynamoDB item model
  (`HashMap<String, AttributeValue>` is embedded as an association list
  with unique keys; `remove`/`insert` are embedded as first-occurrence
  lookup plus key erasure).
* `Replace.fromStr` — the rule parser (`impl FromStr for Replace`).
* `replaceMap` — the recursive rewrite engine (`fn replace`).
* `put` — the conditional-write request builder (`fn put`).
* `runWrites` — the sequential write loop of `fn main`.
-/

namespace DynamodbBulkEdit

/-- Embedding of `aws_sdk_dynamodb::model::AttributeValue`.  Only the `M`
variant is traversed by the rewrite engine; every other variant is a leaf.
The scalar payloads mirror the SDK (`S`/`N`/`B` carry strings,
`NULL`/`BOOL` carry booleans, `L` carries a list that the tool never
enters). -/
inductive AttributeValue where
  | S (s : String)
  | N (n : String)
  | B (b : String)
  | BOOL (b : Bool)
  | NULL (b : Bool)
  | L (l : List AttributeValue)
  | M (m : List (String × AttributeValue))

/-- A record / item: `HashMap<String, AttributeValue>` as an association list. -/
abbrev AttrMap := List (String × AttributeValue)

/-- First-occurrence lookup, embedding `HashMap::get`-style access.  The
Rust `HashMap` has unique keys, so first-occurrence semantics coincide. -/
def getKey (k : String) : AttrMap → Option AttributeValue
  | [] => none
  | (k', v) :: rest => if k' == k then some v else getKey k rest

/-- Key removal (all occurrences; identical to `HashMap::remove`'s effect
on a unique-key map). -/
def eraseKey (k : String) : AttrMap → AttrMap
  | [] => []
  | (k', v) :: rest => if k' == k then eraseKey k rest else (k', v) :: eraseKey k rest

/-- Embedding of `HashMap::insert`: returns the displaced previous value
(if any) together with the updated map. -/
def insertKey (k : String) (v : AttributeValue) (m : AttrMap) :
    Option AttributeValue × AttrMap :=
  (getKey k m, eraseKey k m ++ [(k, v)])

/-- The `Replace` rule structure from the source.  The source's field
names `prefix` and `from`/`to` are Lean keywords or reserved tokens, so
they are rendered `pfx`, `frm` and `dst`. -/
structure Replace where
  root : Bool
  pfx : String
  frm : String
  dst : String
deriving DecidableEq

/-- The `ReplaceResult` accumulator from the source. -/
structure ReplaceResult where
  replacements : Nat
  overwrites : Nat
deriving DecidableEq

/-- Rust `str::ends_with`, embedded at the character level
(for valid UTF-8 the byte-suffix and char-suffix tests agree). -/
def strEndsWith (s p : String) : Bool := List.isSuffixOf p.data s.data

/-- The guard of the rewrite loop, verbatim from `fn replace`:
`path == replacement.prefix || (!replacement.root && path.ends_with(&replacement.prefix))`. -/
def ruleFires (r : Replace) (path : String) : Bool :=
  (path == r.pfx) || (!r.root && strEndsWith path r.pfx)

/-- One iteration of the rule loop in `fn replace`: if the rule fires and
`frm` is present, remove it and insert its value under the destination
name, counting the replacement and (when the insertion displaces an
existing value) the overwrite. -/
def applyRule (path : String) (r : Replace) (m : AttrMap) (res : ReplaceResult) :
    AttrMap × ReplaceResult :=
  if ruleFires r path then
    match getKey r.frm m with
    | some value =>
      let inserted := insertKey r.dst value (eraseKey r.frm m)
      (inserted.2,
        ⟨res.replacements + 1,
         res.overwrites + (if inserted.1.isSome then 1 else 0)⟩)
    | none => (m, res)
  else (m, res)

/-- The full rule loop (`for replacement in replacements`), in list order. -/
def applyRules (path : String) (rules : List Replace) (m : AttrMap)
    (res : ReplaceResult) : AttrMap × ReplaceResult :=
  match rules with
  | [] => (m, res)
  | r :: rest =>
    let st := applyRule path r m res
    applyRules path rest st.1 st.2

/-- Path extension used when recursing into a `M` field, from `fn replace`:
`if path.is_empty() { key.clone() } else { path.clone() + "." + key }`. -/
def extendPath (path key : String) : String :=
  if path.isEmpty then key else path ++ "." ++ key

/-- The `if let AttributeValue::M(map) = value` test of `fn replace`. -/
def isM : AttributeValue → Option AttrMap
  | .M m => some m
  | _ => none

mutual

/-- Size of a value counting map nodes and entries (keys excluded, so the
measure is invariant under renaming a field). -/
def sizeVal : AttributeValue → Nat
  | .M m => 1 + sizeMap m
  | _ => 1

/-- Size of a map: the sum of its values' sizes. -/
def sizeMap : AttrMap → Nat
  | [] => 0
  | (_, v) :: rest => sizeVal v + sizeMap rest

end

theorem sizeVal_pos (v : AttributeValue) : 1 ≤ sizeVal v := by
  cases v <;> simp [sizeVal]

theorem isM_size {v : AttributeValue} {inner : AttrMap} (h : isM v = some inner) :
    sizeVal v = 1 + sizeMap inner := by
  cases v <;> simp [isM] at h <;> simp [sizeVal, h]

theorem sizeMap_append (l₁ l₂ : AttrMap) :
    sizeMap (l₁ ++ l₂) = sizeMap l₁ + sizeMap l₂ := by
  induction l₁ with
  | nil => simp [sizeMap]
  | cons e rest ih =>
    cases e
    simp [sizeMap, ih]
    omega

theorem sizeMap_eraseKey_le (k : String) (m : AttrMap) :
    sizeMap (eraseKey k m) ≤ sizeMap m := by
  induction m with
  | nil => simp [eraseKey]
  | cons e rest ih =>
    cases e with
    | mk k' v =>
      by_cases h : (k' == k) = true
      · simp only [eraseKey, h, if_true, sizeMap]
        have := sizeVal_pos v
        omega
      · simp only [eraseKey, h, if_false, Bool.false_eq_true, sizeMap]
        omega

theorem getKey_size (k : String) (m : AttrMap) (v : AttributeValue)
    (h : getKey k m = some v) :
    sizeVal v + sizeMap (eraseKey k m) ≤ sizeMap m := by
  induction m with
  | nil => simp [getKey] at h
  | cons e rest ih =>
    cases e with
    | mk k' v' =>
      by_cases hk : (k' == k) = true
      · simp [getKey, hk] at h
        subst h
        simp only [eraseKey, hk, if_true, sizeMap]
        have := sizeMap_eraseKey_le k rest
        omega
      · simp [getKey, hk] at h
        simp only [eraseKey, hk, if_false, Bool.false_eq_true, sizeMap]
        have := ih h
        omega

theorem applyRule_size (path : String) (r : Replace) (m : AttrMap)
    (res : ReplaceResult) : sizeMap (applyRule path r m res).1 ≤ sizeMap m := by
  unfold applyRule
  by_cases hf : ruleFires r path
  · simp only [hf, if_true]
    cases hg : getKey r.frm m with
    | none => simp
    | some v =>
      simp only [insertKey]
      have h1 := getKey_size r.frm m v hg
      have h2 := sizeMap_eraseKey_le r.dst (eraseKey r.frm m)
      simp only [sizeMap_append, sizeMap]
      omega
  · simp [hf]

theorem applyRules_size (path : String) (rules : List Replace) (m : AttrMap)
    (res : ReplaceResult) : sizeMap (applyRules path rules m res).1 ≤ sizeMap m := by
  induction rules generalizing m res with
  | nil => simp [applyRules]
  | cons r rest ih =>
    simp only [applyRules]
    exact le_trans (ih _ _) (applyRule_size path r m res)

mutual

/-- The rewrite engine, `fn replace` from the source: first run every rule
against the current map (in rule-list order, mutating in place), then
recurse into every field whose value is a `M`, extending the dotted path. -/
def replaceMap (path : String) (rules : List Replace) (m : AttrMap)
    (res : ReplaceResult) : AttrMap × ReplaceResult :=
  let st := applyRules path rules m res
  replaceChildren path rules st.1 st.2
termination_by 2 * sizeMap m + 1
decreasing_by
  have := applyRules_size path rules m res
  omega

/-- The child-recursion loop of `fn replace`
(`for (key, value) in attribute { if let AttributeValue::M(map) = value { ... } }`). -/
def replaceChildren (path : String) (rules : List Replace) (m : AttrMap)
    (res : ReplaceResult) : AttrMap × ReplaceResult :=
  match m with
  | [] => ([], res)
  | (key, v) :: rest =>
    match h : isM v with
    | some inner =>
      let st := replaceMap (extendPath path key) rules inner res
      let st' := replaceChildren path rules rest st.2
      ((key, .M st.1) :: st'.1, st'.2)
    | none => -- every non-map value is a leaf, passed through unmodified
      let st' := replaceChildren path rules rest res
      ((key, v) :: st'.1, st'.2)
termination_by 2 * sizeMap m
decreasing_by
  · have := isM_size h
    simp only [sizeMap]
    omega
  · have := isM_size h
    simp only [sizeMap]
    omega
  · have := sizeVal_pos v
    simp only [sizeMap]
    omega

end

mutual

/-- Fuel-indexed evaluator for `replaceMap`, used to state termination:
the recursion of `fn replace` completes within a fuel budget bounded by
the size of the record.  Structural in `fuel`, hence kernel-computable. -/
def replaceMapF : Nat → String → List Replace → AttrMap → ReplaceResult →
    Option (AttrMap × ReplaceResult)
  | 0, _, _, _, _ => none
  | fuel + 1, path, rules, m, res =>
    let st := applyRules path rules m res
    replaceChildrenF fuel path rules st.1 st.2

/-- Fuel-indexed evaluator for `replaceChildren`. -/
def replaceChildrenF : Nat → String → List Replace → AttrMap → ReplaceResult →
    Option (AttrMap × ReplaceResult)
  | 0, _, _, _, _ => none
  | _ + 1, _, _, [], res => some ([], res)
  | fuel + 1, path, rules, (key, v) :: rest, res =>
    match isM v with
    | some inner =>
      match replaceMapF fuel (extendPath path key) rules inner res with
      | none => none
      | some st =>
        match replaceChildrenF fuel path rules rest st.2 with
        | none => none
        | some st' => some ((key, .M st.1) :: st'.1, st'.2)
    | none =>
      match replaceChildrenF fuel path rules rest res with
      | none => none
      | some st' => some ((key, v) :: st'.1, st'.2)

end

theorem replaceF_complete (fuel : Nat) :
    (∀ path rules m res, 2 * sizeMap m + 2 ≤ fuel →
      replaceMapF fuel path rules m res = some (replaceMap path rules m res)) ∧
    (∀ path rules m res, 2 * sizeMap m + 1 ≤ fuel →
      replaceChildrenF fuel path rules m res =
        some (replaceChildren path rules m res)) := by
  induction fuel with
  | zero => constructor <;> intro path rules m res h <;> omega
  | succ fuel ih =>
    constructor
    · intro path rules m res h
      rw [replaceMap]
      simp only [replaceMapF]
      have hsz := applyRules_size path rules m res
      exact ih.2 path rules _ _ (by omega)
    · intro path rules m res h
      match m with
      | [] =>
        simp [replaceChildrenF, replaceChildren]
      | (key, v) :: rest =>
        rw [replaceChildren]
        cases hM : isM v with
        | some inner =>
          have hv := isM_size hM
          simp only [sizeMap] at h
          simp only [replaceChildrenF, hM]
          rw [ih.1 (extendPath path key) rules inner res (by omega)]
          dsimp only
          rw [ih.2 path rules rest _ (by omega)]
        | none =>
          have hv := sizeVal_pos v
          simp only [sizeMap] at h
          simp only [replaceChildrenF, hM]
          rw [ih.2 path rules rest res (by omega)]

/-- Transfer of a concrete fuel-evaluator run to the rewrite engine. -/
theorem replaceMap_eval (fuel : Nat) {path : String} {rules : List Replace}
    {m : AttrMap} {res : ReplaceResult} {out : AttrMap × ReplaceResult}
    (hf : 2 * sizeMap m + 2 ≤ fuel)
    (he : replaceMapF fuel path rules m res = some out) :
    replaceMap path rules m res = out := by
  have := (replaceF_complete fuel).1 path rules m res hf
  rw [he] at this
  exact (Option.some.injEq _ _).mp this.symm

/-! ## The rule parser (`impl FromStr for Replace`) -/

/-- The parse-error type `ReplaceParseError` from the source. -/
inductive ReplaceParseError where
  | MissingArrow
  | InvalidAttribute (attr : String)
  | Unsupported
deriving DecidableEq

/-- Rust `str::split_once`, at the character level: split at the first
occurrence of `c`. -/
def splitOnceChars (c : Char) : List Char → Option (List Char × List Char)
  | [] => none
  | x :: xs =>
    if x == c then some ([], xs)
    else (splitOnceChars c xs).map (fun p => (x :: p.1, p.2))

/-- `s.split_once(c)` on strings. -/
def splitOnceStr (s : String) (c : Char) : Option (String × String) :=
  (splitOnceChars c s.data).map (fun p => (String.mk p.1, String.mk p.2))

/-- Rust `str::starts_with`, at the character level. -/
def strStartsWith (s p : String) : Bool := List.isPrefixOf p.data s.data

/-- Rust `str::contains(char)`. -/
def strContains (s : String) (c : Char) : Bool := s.data.contains c

/-- Membership in the attribute-name character class of the source's
regex `[a-zA-Z0-9_\-.]`. -/
def isNameChar (c : Char) : Bool :=
  ('a' ≤ c && c ≤ 'z') || ('A' ≤ c && c ≤ 'Z') || ('0' ≤ c && c ≤ '9') ||
    c == '_' || c == '-' || c == '.'

/-- `NAME_REGEX.find(name)` for the pattern `[a-zA-Z0-9_\-.]+`: the
leftmost maximal run of name characters, returned as (start, end)
indices, or `none` if no name character occurs. -/
def regexFind (cs : List Char) : Option (Nat × Nat) :=
  let start := (cs.takeWhile (fun c => !isNameChar c)).length
  let run := ((cs.drop start).takeWhile isNameChar).length
  if run = 0 then none else some (start, start + run)

/-- `validate_attribute_name` from the source: the regex search must find
a match, and the match must span the whole string
(`m.start() == 0 && m.end() == name.len()`). -/
def validateAttributeName (name : String) : Bool :=
  match regexFind name.data with
  | some (s, e) => s == 0 && e == name.data.length
  | none => false

/-- Splitting `before` at its final `'.'`:
the second component is `before.split('.').last()` (the segment after the
final dot) and the first is
`before.strip_suffix(&format!(".{}", from)).unwrap()` (everything before
the final dot).  Both are total here because they are only used when
`before` contains a `'.'`. -/
def splitAtLastDot (b : String) : String × String :=
  let rev := b.data.reverse
  (String.mk (((rev.dropWhile (fun c => !(c == '.'))).drop 1).reverse),
   String.mk ((rev.takeWhile (fun c => !(c == '.'))).reverse))

/-- Rust `str::strip_prefix` on character lists (pattern, then string). -/
def stripPreChars : List Char → List Char → Option (List Char)
  | [], cs => some cs
  | _ :: _, [] => none
  | p :: ps, c :: cs => if c == p then stripPreChars ps cs else none

/-- Rust `a.strip_prefix(p)` on strings. -/
def stripPre (a p : String) : Option String :=
  (stripPreChars p.data a.data).map String.mk

/-- The tail of `Replace::from_str` after the wildcard handling: validate
both sides, then split `before` into `prefix`/`from` at its final dot and
require `after` to begin with `prefix + "."`. -/
def fromStrTail (root : Bool) (b a : String) : Except ReplaceParseError Replace :=
  if validateAttributeName b = false then .error (.InvalidAttribute b)
  else if validateAttributeName a = false then .error (.InvalidAttribute a)
  else if strContains b '.' then
    let pf := (splitAtLastDot b).1
    let fr := (splitAtLastDot b).2
    match stripPre a (pf ++ ".") with
    | some t => .ok ⟨root, pf, fr, t⟩
    | none => .error .Unsupported
  else if strContains a '.' then .error .Unsupported
  else .ok ⟨root, "", b, a⟩

/-- `Replace::from_str`: split at the first `'>'`; a leading `'*'` on
`before` must be matched by one on `after` (then both are stripped and
the rule is a suffix rule); then parse the two sides. -/
def fromStr (s : String) : Except ReplaceParseError Replace :=
  match splitOnceStr s '>' with
  | none => .error .MissingArrow
  | some (b0, a0) =>
    if strStartsWith b0 "*" then
      if strStartsWith a0 "*" then
        fromStrTail false (String.mk (b0.data.drop 1)) (String.mk (a0.data.drop 1))
      else .error .Unsupported
    else fromStrTail true b0 a0

/-! ## The conditional writer (`fn put`) and the write loop of `fn main` -/

/-- A conditional `PutItem` request as assembled by `fn put`: the payload
item, the optional condition expression, and the bound placeholder
names/values. -/
structure PutRequest where
  item : AttrMap
  conditionExpr : Option String
  exprAttrNames : List (String × String)
  exprAttrValues : List (String × AttributeValue)

/-- One condition fragment `format!("#a{} = :a{}", i, i)`. -/
def condPiece (i : Nat) : String :=
  "#a" ++ Nat.repr i ++ " = :a" ++ Nat.repr i

/-- One iteration of the `for (key, value) in old` loop of `fn put`:
push the condition fragment and the two placeholder bindings for the
current counter value, then advance the counter. -/
def putStep (st : List String × List (String × String) ×
    List (String × AttributeValue) × Nat) (kv : String × AttributeValue) :
    List String × List (String × String) ×
      List (String × AttributeValue) × Nat :=
  (st.1 ++ [condPiece st.2.2.2],
   st.2.1 ++ [("#a" ++ Nat.repr st.2.2.2, kv.1)],
   st.2.2.1 ++ [(":a" ++ Nat.repr st.2.2.2, kv.2)],
   st.2.2.2 + 1)

/-- `fn put` from the source: iterate over the fields of the original
item with a counter `i`, accumulating the condition fragments and the
placeholder bindings, then attach the `" AND "`-joined condition unless
the fragment list is empty. -/
def put (old item : AttrMap) : PutRequest :=
  let st := old.foldl putStep ([], [], [], 0)
  { item := item
    conditionExpr :=
      if st.1.isEmpty then none else some (String.intercalate " AND " st.1)
    exprAttrNames := st.2.1
    exprAttrValues := st.2.2.1 }

/-- Modelled from the spec's description of the condition builder, for
comparison with `put`: one fragment and one placeholder pair per original
field, indexed consecutively starting at `i`. -/
def condTriples (i : Nat) : AttrMap →
    List String × List (String × String) × List (String × AttributeValue)
  | [] => ([], [], [])
  | (k, v) :: rest =>
    let t := condTriples (i + 1) rest
    (condPiece i :: t.1,
     ("#a" ++ Nat.repr i, k) :: t.2.1,
     (":a" ++ Nat.repr i, v) :: t.2.2)

/-- The two classes of put failure distinguished by `fn main`:
`aws_sdk_dynamodb::Error::ConditionalCheckFailedException(_)` versus any
other error (reported through its message). -/
inductive PutError where
  | conditionalCheckFailed (msg : String)
  | other (msg : String)
deriving DecidableEq

/-- The user-visible outcome of the write phase of `fn main`. -/
inductive RunOutcome where
  | success (count : Nat)
  | conflictHalt (prior : Nat)
  | errorHalt (prior : Nat) (msg : String)
deriving DecidableEq

/-- The write loop of `fn main`: writes are issued strictly sequentially
over the dirty list; `count` tracks successful writes; the first failure
halts the run, reporting a conflict distinctly from other errors.  The
list holds the outcome of each `put` call in dirty-list order (`none` =
success); the function returns the reported outcome together with the
number of `put` calls actually attempted. -/
def runWrites (count : Nat) : List (Option PutError) → RunOutcome × Nat
  | [] => (.success count, 0)
  | some (.conditionalCheckFailed _) :: _ => (.conflictHalt count, 1)
  | some (.other msg) :: _ => (.errorHalt count msg, 1)
  | none :: rest =>
    let st := runWrites (count + 1) rest
    (st.1, st.2 + 1)

/-! ## General helper lemmas -/

theorem strEndsWith_refl (s : String) : strEndsWith s s = true := by
  unfold strEndsWith List.isSuffixOf
  induction s.data.reverse with
  | nil => rfl
  | cons a t ih => simp [List.isPrefixOf, ih]

theorem runWrites_success (l : List (Option PutError)) (count : Nat)
    (h : ∀ x ∈ l, x = none) :
    runWrites count l = (.success (count + l.length), l.length) := by
  induction l generalizing count with
  | nil => simp [runWrites]
  | cons x rest ih =>
    have hx : x = none := h x (by simp)
    subst hx
    simp only [runWrites]
    rw [ih (count + 1) (fun y hy => h y (by simp [hy]))]
    simp
    omega

theorem runWrites_halt (pre rest : List (Option PutError)) (e : PutError)
    (count : Nat) (h : ∀ x ∈ pre, x = none) :
    runWrites count (pre ++ some e :: rest) =
      ((match e with
        | .conditionalCheckFailed _ => .conflictHalt (count + pre.length)
        | .other msg => .errorHalt (count + pre.length) msg),
       pre.length + 1) := by
  induction pre generalizing count with
  | nil =>
    cases e <;> simp [runWrites]
  | cons x p ih =>
    have hx : x = none := h x (by simp)
    subst hx
    simp only [List.cons_append, runWrites, List.append_eq]
    rw [ih (count + 1) (fun y hy => h y (by simp [hy]))]
    cases e <;> simp <;> omega

theorem put_foldl (old : AttrMap) :
    ∀ (e : List String) (n : List (String × String))
      (v : List (String × AttributeValue)) (i : Nat),
    old.foldl putStep (e, n, v, i) =
      (e ++ (condTriples i old).1, n ++ (condTriples i old).2.1,
       v ++ (condTriples i old).2.2, i + old.length) := by
  induction old with
  | nil => intro e n v i; simp [condTriples]
  | cons kv rest ih =>
    intro e n v i
    simp only [List.foldl_cons, putStep, condTriples]
    rw [ih]
    simp only [List.append_assoc, List.singleton_append, List.length_cons]
    have harith : i + 1 + rest.length = i + (rest.length + 1) := by omega
    rw [harith]

theorem condTriples_parts (old : AttrMap) : ∀ i,
    (condTriples i old).1 = (List.range' i old.length).map condPiece ∧
    (condTriples i old).2.1.map Prod.fst =
      (List.range' i old.length).map (fun j => "#a" ++ Nat.repr j) ∧
    (condTriples i old).2.2.map Prod.fst =
      (List.range' i old.length).map (fun j => ":a" ++ Nat.repr j) ∧
    (condTriples i old).2.1.map Prod.snd = old.map Prod.fst ∧
    (condTriples i old).2.2.map Prod.snd = old.map Prod.snd := by
  induction old with
  | nil => intro i; simp [condTriples]
  | cons kv rest ih =>
    intro i
    have h := ih (i + 1)
    simp only [condTriples, List.length_cons, List.range'_succ, List.map_cons]
    exact ⟨by rw [h.1], by rw [h.2.1], by rw [h.2.2.1],
      by rw [h.2.2.2.1], by rw [h.2.2.2.2]⟩

theorem validate_name_chars {n : String} (h : validateAttributeName n = true) :
    n.data ≠ [] ∧ n.data.all isNameChar = true := by
  simp only [validateAttributeName, regexFind] at h
  by_cases hrun : ((n.data.drop ((n.data.takeWhile
      (fun c => !isNameChar c)).length)).takeWhile isNameChar).length = 0
  · rw [if_pos hrun] at h
    simp at h
  · rw [if_neg hrun] at h
    simp only [Bool.and_eq_true, beq_iff_eq] at h
    obtain ⟨h0, hlen⟩ := h
    rw [h0] at hlen hrun
    simp only [List.drop_zero] at hlen hrun
    have htw : n.data.takeWhile isNameChar = n.data :=
      (List.takeWhile_prefix isNameChar).eq_of_length (by omega)
    refine ⟨?_, ?_⟩
    · intro hnil
      rw [hnil] at hrun
      simp at hrun
    · rw [List.all_eq_true]
      intro x hx
      rw [← htw] at hx
      exact List.mem_takeWhile_imp hx

theorem strStartsWith_star {a : String} (h : strStartsWith a "*" = true) :
    ∃ rest, a.data = '*' :: rest := by
  unfold strStartsWith at h
  match hd : a.data with
  | [] => rw [hd] at h; simp [List.isPrefixOf] at h
  | c :: cs =>
    rw [hd] at h
    have hstar : ("*" : String).data = ['*'] := rfl
    rw [hstar] at h
    simp only [List.isPrefixOf, Bool.and_eq_true] at h
    exact ⟨cs, by rw [eq_of_beq h.1]⟩

theorem validate_star_false {a : String} (h : strStartsWith a "*" = true) :
    validateAttributeName a = false := by
  obtain ⟨rest, hd⟩ := strStartsWith_star h
  simp only [validateAttributeName, regexFind, hd]
  rw [List.takeWhile_cons_of_pos (by decide)]
  by_cases hrun : ((('*' :: rest).drop (('*' :: (rest.takeWhile
      (fun c => !isNameChar c))).length)).takeWhile isNameChar).length = 0
  · rw [if_pos hrun]
  · rw [if_neg hrun]
    simp

theorem stripPreChars_append {p cs rest : List Char}
    (h : stripPreChars p cs = some rest) : cs = p ++ rest := by
  induction p generalizing cs with
  | nil =>
    simp only [stripPreChars, Option.some.injEq] at h
    simp [h]
  | cons x ps ih =>
    match cs with
    | [] => simp [stripPreChars] at h
    | c :: cs' =>
      simp only [stripPreChars] at h
      by_cases hc : (c == x) = true
      · rw [if_pos hc] at h
        have hcx : c = x := eq_of_beq hc
        subst hcx
        simp [ih h]
      · rw [if_neg hc] at h
        exact absurd h (by simp)

theorem fromStrTail_ok {root : Bool} {b a : String} {r : Replace}
    (h : fromStrTail root b a = .ok r) :
    r.frm.data.all isNameChar = true ∧
    r.dst.data.all isNameChar = true ∧
    r.frm.data.contains '.' = false := by
  unfold fromStrTail at h
  by_cases hb : validateAttributeName b = false
  · rw [if_pos hb] at h
    exact absurd h (by simp)
  · rw [if_neg hb] at h
    have hb' : validateAttributeName b = true := by
      cases hvb : validateAttributeName b
      · exact absurd hvb hb
      · rfl
    by_cases ha : validateAttributeName a = false
    · rw [if_pos ha] at h
      exact absurd h (by simp)
    · rw [if_neg ha] at h
      have ha' : validateAttributeName a = true := by
        cases hva : validateAttributeName a
        · exact absurd hva ha
        · rfl
      have hballq := (validate_name_chars hb').2
      have haallq := (validate_name_chars ha').2
      by_cases hdot : (strContains b '.') = true
      · rw [if_pos hdot] at h
        dsimp only at h
        cases hsp : stripPre a ((splitAtLastDot b).1 ++ ".") with
        | none =>
          rw [hsp] at h
          exact absurd h (by simp)
        | some t =>
          rw [hsp] at h
          simp only [Except.ok.injEq] at h
          subst h
          simp only [splitAtLastDot]
          refine ⟨?_, ?_, ?_⟩
          · rw [List.all_eq_true]
            intro x hx
            simp only [List.mem_reverse] at hx
            have hx2 : x ∈ b.data.reverse :=
              (List.takeWhile_prefix _).sublist.subset hx
            rw [List.mem_reverse] at hx2
            exact (List.all_eq_true.mp hballq) x hx2
          · obtain ⟨l, hl, hlt⟩ := Option.map_eq_some'.mp hsp
            have happ := stripPreChars_append hl
            have hdata : t.data = l := by rw [← hlt]
            rw [List.all_eq_true]
            intro x hx
            have hxa : x ∈ a.data := by
              rw [happ]
              exact List.mem_append_right _ (hdata ▸ hx)
            exact (List.all_eq_true.mp haallq) x hxa
          · have hnd : ('.' : Char) ∉
                ((b.data.reverse.takeWhile (fun c => !(c == '.'))).reverse) := by
              intro hmem
              rw [List.mem_reverse] at hmem
              have := List.mem_takeWhile_imp hmem
              simp at this
            simpa using hnd
      · rw [if_neg hdot] at h
        by_cases hadot : (strContains a '.') = true
        · rw [if_pos hadot] at h
          exact absurd h (by simp)
        · rw [if_neg hadot] at h
          simp only [Except.ok.injEq] at h
          subst h
          refine ⟨hballq, haallq, ?_⟩
          unfold strContains at hdot
          simpa using hdot

theorem string_append_dot_ne_empty (path key : String) :
    path ++ "." ++ key ≠ "" := by
  intro h
  have hd : (path ++ "." ++ key).data = [] := by rw [h]
  rw [String.data_append, String.data_append] at hd
  simp at hd

theorem extendPath_ne_empty {path : String} (key : String) (h : path ≠ "") :
    extendPath path key ≠ "" := by
  unfold extendPath
  have : path.isEmpty = false := by
    cases hie : path.isEmpty
    · rfl
    · exact absurd ((String.isEmpty_iff path).mp hie) h
  rw [this]
  simp only [Bool.false_eq_true, if_false]
  exact string_append_dot_ne_empty path key

theorem rootEmpty_fires_false {r : Replace} {path : String}
    (hroot : r.root = true) (hpfx : r.pfx = "") (h : path ≠ "") :
    ruleFires r path = false := by
  unfold ruleFires
  rw [hroot, hpfx]
  simp [h]

theorem applyRules_nofire {path : String} {rules : List Replace}
    (h : ∀ r ∈ rules, ruleFires r path = false) (m : AttrMap)
    (res : ReplaceResult) : applyRules path rules m res = (m, res) := by
  induction rules with
  | nil => rfl
  | cons r rest ih =>
    have hr : ruleFires r path = false := h r (by simp)
    simp only [applyRules, applyRule, hr, Bool.false_eq_true, if_false]
    exact ih (fun r' hr' => h r' (by simp [hr']))

/-- A root rule with empty prefix is a no-op on every map reached with a
non-empty dotted path (jointly with the child loop), since deeper paths
stay non-empty. -/
theorem deepNoop (r : Replace) (hroot : r.root = true) (hpfx : r.pfx = "") :
    ∀ n : Nat,
    (∀ path m res, sizeMap m ≤ n → path ≠ "" →
      replaceMap path [r] m res = (m, res)) ∧
    (∀ path m res, sizeMap m ≤ n → path ≠ "" →
      replaceChildren path [r] m res = (m, res)) := by
  intro n
  induction n with
  | zero =>
    constructor
    · intro path m res hsz hne
      have hm : m = [] := by
        cases m with
        | nil => rfl
        | cons e rest =>
          exfalso
          obtain ⟨k, v⟩ := e
          simp only [sizeMap] at hsz
          have := sizeVal_pos v
          omega
      subst hm
      rw [replaceMap]
      rw [applyRules_nofire (fun r' hr' => by
        rw [List.mem_singleton] at hr'
        subst hr'
        exact rootEmpty_fires_false hroot hpfx hne) [] res]
      rw [replaceChildren]
    · intro path m res hsz hne
      have hm : m = [] := by
        cases m with
        | nil => rfl
        | cons e rest =>
          exfalso
          obtain ⟨k, v⟩ := e
          simp only [sizeMap] at hsz
          have := sizeVal_pos v
          omega
      subst hm
      rw [replaceChildren]
  | succ n ih =>
    have hchild : ∀ path m res, sizeMap m ≤ n + 1 → path ≠ "" →
        replaceChildren path [r] m res = (m, res) := by
      intro path m
      induction m with
      | nil =>
        intro res _ _
        rw [replaceChildren]
      | cons e rest ihl =>
        intro res hsz hne
        obtain ⟨k, v⟩ := e
        simp only [sizeMap] at hsz
        have hvpos := sizeVal_pos v
        cases v with
        | M inner =>
          have hszin : sizeMap inner ≤ n := by
            simp only [sizeVal] at hsz
            omega
          simp only [replaceChildren, isM]
          rw [ih.1 (extendPath path k) inner res hszin
            (extendPath_ne_empty k hne)]
          rw [ihl res (by omega) hne]
        | S s =>
          simp only [replaceChildren, isM]
          rw [ihl res (by omega) hne]
        | N s =>
          simp only [replaceChildren, isM]
          rw [ihl res (by omega) hne]
        | B s =>
          simp only [replaceChildren, isM]
          rw [ihl res (by omega) hne]
        | BOOL s =>
          simp only [replaceChildren, isM]
          rw [ihl res (by omega) hne]
        | NULL s =>
          simp only [replaceChildren, isM]
          rw [ihl res (by omega) hne]
        | L s =>
          simp only [replaceChildren, isM]
          rw [ihl res (by omega) hne]
    constructor
    · intro path m res hsz hne
      rw [replaceMap]
      rw [applyRules_nofire (fun r' hr' => by
        rw [List.mem_singleton] at hr'
        subst hr'
        exact rootEmpty_fires_false hroot hpfx hne) m res]
      exact hchild path m res hsz hne
    · exact hchild

theorem mem_eraseKey {e : String × AttributeValue} {k : String} {m : AttrMap}
    (h : e ∈ eraseKey k m) : e ∈ m := by
  induction m with
  | nil => simp [eraseKey] at h
  | cons e' rest ih =>
    obtain ⟨k', v'⟩ := e'
    by_cases hk : (k' == k) = true
    · simp only [eraseKey, hk, if_true] at h
      exact List.mem_cons_of_mem _ (ih h)
    · simp only [eraseKey, hk, Bool.false_eq_true, if_false] at h
      rcases List.mem_cons.mp h with h1 | h2
      · exact h1 ▸ List.mem_cons_self _ _
      · exact List.mem_cons_of_mem _ (ih h2)

theorem mem_applyRule {e : String × AttributeValue} {path : String}
    {r : Replace} {m : AttrMap} {res : ReplaceResult}
    (h : e ∈ (applyRule path r m res).1) : e ∈ m ∨ e.1 = r.dst := by
  unfold applyRule at h
  by_cases hf : ruleFires r path
  · rw [if_pos hf] at h
    cases hg : getKey r.frm m with
    | none =>
      rw [hg] at h
      exact Or.inl h
    | some v =>
      rw [hg] at h
      simp only [insertKey] at h
      rcases List.mem_append.mp h with h1 | h2
      · exact Or.inl (mem_eraseKey (mem_eraseKey h1))
      · rcases List.mem_singleton.mp h2 with h3
        exact Or.inr (by rw [h3])
  · rw [if_neg hf] at h
    exact Or.inl h

/-! ## Lemmas for idempotence -/

theorem sizeMap_le_zero {m : AttrMap} (h : sizeMap m ≤ 0) : m = [] := by
  cases m with
  | nil => rfl
  | cons e rest =>
    exfalso
    obtain ⟨k, v⟩ := e
    simp only [sizeMap] at h
    have := sizeVal_pos v
    omega

theorem sizeVal_le_of_mem {k : String} {v : AttributeValue} {m : AttrMap}
    (h : (k, v) ∈ m) : sizeVal v ≤ sizeMap m := by
  induction m with
  | nil => simp at h
  | cons e rest ih =>
    obtain ⟨k', v'⟩ := e
    simp only [sizeMap]
    rcases List.mem_cons.mp h with h1 | h2
    · obtain ⟨h1k, h1v⟩ := Prod.mk.injEq .. ▸ h1
      subst h1v
      omega
    · have := ih h2
      have := sizeVal_pos v'
      omega

theorem getKey_append (k : String) (l l' : AttrMap) :
    getKey k (l ++ l') =
      (match getKey k l with
       | some v => some v
       | none => getKey k l') := by
  induction l with
  | nil => simp [getKey]
  | cons e rest ih =>
    obtain ⟨k', v⟩ := e
    by_cases hk : (k' == k) = true
    · simp [getKey, hk]
    · simp only [List.cons_append, getKey, hk, Bool.false_eq_true, if_false]
      exact ih

theorem getKey_eraseKey_self (k : String) (m : AttrMap) :
    getKey k (eraseKey k m) = none := by
  induction m with
  | nil => rfl
  | cons e rest ih =>
    obtain ⟨k', v⟩ := e
    by_cases hk : (k' == k) = true
    · simp only [eraseKey, hk, if_true]
      exact ih
    · simp only [eraseKey, hk, Bool.false_eq_true, if_false, getKey]
      exact ih

theorem getKey_eraseKey_ne {k k' : String} (h : k ≠ k') (m : AttrMap) :
    getKey k (eraseKey k' m) = getKey k m := by
  induction m with
  | nil => rfl
  | cons e rest ih =>
    obtain ⟨k'', v⟩ := e
    by_cases hk : (k'' == k') = true
    · have : (k'' == k) = false := by
        have := eq_of_beq hk
        subst this
        simp [Ne.symm h]
      simp only [eraseKey, hk, if_true, getKey, this, Bool.false_eq_true,
        if_false]
      exact ih
    · simp only [eraseKey, hk, Bool.false_eq_true, if_false, getKey]
      by_cases hk2 : (k'' == k) = true
      · simp [hk2]
      · simp only [hk2, Bool.false_eq_true, if_false]
        exact ih

theorem getKey_map_none {k : String} {m : AttrMap}
    (f : String → AttributeValue → AttributeValue)
    (h : getKey k m = none) :
    getKey k (m.map (fun e => (e.1, f e.1 e.2))) = none := by
  induction m with
  | nil => rfl
  | cons e rest ih =>
    obtain ⟨k', v⟩ := e
    by_cases hk : (k' == k) = true
    · simp [getKey, hk] at h
    · simp only [getKey, hk, Bool.false_eq_true, if_false] at h
      simp only [List.map_cons, getKey, hk, Bool.false_eq_true, if_false]
      exact ih h

theorem applyRule_fst_res (path : String) (r : Replace) (m : AttrMap)
    (res res' : ReplaceResult) :
    (applyRule path r m res).1 = (applyRule path r m res').1 := by
  unfold applyRule
  by_cases hf : ruleFires r path
  · rw [if_pos hf, if_pos hf]
    cases getKey r.frm m <;> rfl
  · rw [if_neg hf, if_neg hf]

theorem applyRules_fst_res (path : String) (rules : List Replace) :
    ∀ (m : AttrMap) (res res' : ReplaceResult),
    (applyRules path rules m res).1 = (applyRules path rules m res').1 := by
  induction rules with
  | nil => intro m res res'; rfl
  | cons r rest ih =>
    intro m res res'
    simp only [applyRules]
    rw [applyRule_fst_res path r m res res']
    exact ih _ _ _

theorem replace_fst_res (n : Nat) :
    (∀ path rules m res res', sizeMap m ≤ n →
      (replaceMap path rules m res).1 = (replaceMap path rules m res').1) ∧
    (∀ path rules m res res', sizeMap m ≤ n →
      (replaceChildren path rules m res).1 =
        (replaceChildren path rules m res').1) := by
  induction n with
  | zero =>
    constructor
    · intro path rules m res res' hsz
      rw [sizeMap_le_zero hsz]
      rw [replaceMap, replaceMap]
      have h1 : (applyRules path rules [] res).1 = [] :=
        sizeMap_le_zero (le_trans (applyRules_size path rules [] res)
          (by simp [sizeMap]))
      have h2 : (applyRules path rules [] res').1 = [] :=
        sizeMap_le_zero (le_trans (applyRules_size path rules [] res')
          (by simp [sizeMap]))
      rw [h1, h2, replaceChildren, replaceChildren]
    · intro path rules m res res' hsz
      rw [sizeMap_le_zero hsz]
      rw [replaceChildren, replaceChildren]
  | succ n ih =>
    have hchild : ∀ path rules m res res', sizeMap m ≤ n + 1 →
        (replaceChildren path rules m res).1 =
          (replaceChildren path rules m res').1 := by
      intro path rules m
      induction m with
      | nil =>
        intro res res' _
        rw [replaceChildren, replaceChildren]
      | cons e rest ihl =>
        intro res res' hsz
        obtain ⟨k, v⟩ := e
        simp only [sizeMap] at hsz
        have hvpos := sizeVal_pos v
        cases v with
        | M inner =>
          have hszin : sizeMap inner ≤ n := by
            simp only [sizeVal] at hsz
            omega
          simp only [replaceChildren, isM]
          rw [ih.1 (extendPath path k) rules inner res res' hszin]
          rw [ihl _ _ (by omega)]
        | S s =>
          simp only [replaceChildren, isM]
          rw [ihl _ _ (by omega)]
        | N s =>
          simp only [replaceChildren, isM]
          rw [ihl _ _ (by omega)]
        | B s =>
          simp only [replaceChildren, isM]
          rw [ihl _ _ (by omega)]
        | BOOL s =>
          simp only [replaceChildren, isM]
          rw [ihl _ _ (by omega)]
        | NULL s =>
          simp only [replaceChildren, isM]
          rw [ihl _ _ (by omega)]
        | L s =>
          simp only [replaceChildren, isM]
          rw [ihl _ _ (by omega)]
    constructor
    · intro path rules m res res' hsz
      rw [replaceMap, replaceMap]
      rw [applyRules_fst_res path rules m res res']
      have hsz1 : sizeMap (applyRules path rules m res').1 ≤ n + 1 :=
        le_trans (applyRules_size path rules m res') hsz
      exact hchild path rules _ _ _ hsz1
    · exact hchild

/-- The value produced for one field by the child-recursion loop: map
values are rewritten at the extended path, leaves pass through. -/
def childVal (rules : List Replace) (p : String) (v : AttributeValue) :
    AttributeValue :=
  match isM v with
  | some inner => .M (replaceMap p rules inner ⟨0, 0⟩).1
  | none => v

theorem childVal_isM (rules : List Replace) (p : String) (v : AttributeValue)
    (inner : AttrMap) (h : isM v = some inner) :
    childVal rules p v = .M (replaceMap p rules inner ⟨0, 0⟩).1 := by
  unfold childVal
  rw [h]

theorem childVal_leaf (rules : List Replace) (p : String) (v : AttributeValue)
    (h : isM v = none) : childVal rules p v = v := by
  unfold childVal
  rw [h]

theorem replaceChildren_fst_eq (path : String) (rules : List Replace) :
    ∀ (m : AttrMap) (res : ReplaceResult),
    (replaceChildren path rules m res).1 =
      m.map (fun e => (e.1, childVal rules (extendPath path e.1) e.2)) := by
  intro m
  induction m with
  | nil =>
    intro res
    rw [replaceChildren]
    rfl
  | cons e rest ih =>
    intro res
    obtain ⟨k, v⟩ := e
    rw [List.map_cons]
    cases v with
    | M inner =>
      simp only [replaceChildren, isM]
      rw [childVal_isM rules (extendPath path k) (.M inner) inner rfl]
      rw [(replace_fst_res (sizeMap inner)).1
        (extendPath path k) rules inner res ⟨0, 0⟩ le_rfl]
      rw [ih _]
    | S s =>
      simp only [replaceChildren, isM]
      rw [childVal_leaf rules (extendPath path k) (.S s) rfl, ih _]
    | N s =>
      simp only [replaceChildren, isM]
      rw [childVal_leaf rules (extendPath path k) (.N s) rfl, ih _]
    | B s =>
      simp only [replaceChildren, isM]
      rw [childVal_leaf rules (extendPath path k) (.B s) rfl, ih _]
    | BOOL s =>
      simp only [replaceChildren, isM]
      rw [childVal_leaf rules (extendPath path k) (.BOOL s) rfl, ih _]
    | NULL s =>
      simp only [replaceChildren, isM]
      rw [childVal_leaf rules (extendPath path k) (.NULL s) rfl, ih _]
    | L s =>
      simp only [replaceChildren, isM]
      rw [childVal_leaf rules (extendPath path k) (.L s) rfl, ih _]

theorem applyRule_getKey_none {k path : String} {r : Replace} {m : AttrMap}
    {res : ReplaceResult} (hk : getKey k m = none)
    (hdst : ruleFires r path = true → r.dst ≠ k) :
    getKey k (applyRule path r m res).1 = none := by
  unfold applyRule
  by_cases hf : ruleFires r path
  · rw [if_pos hf]
    cases hg : getKey r.frm m with
    | none => exact hk
    | some v =>
      simp only [insertKey]
      rw [getKey_append]
      have h1 : getKey k (eraseKey r.dst (eraseKey r.frm m)) = none := by
        by_cases hkd : k = r.dst
        · rw [hkd]
          exact getKey_eraseKey_self r.dst _
        · rw [getKey_eraseKey_ne hkd]
          by_cases hkf : k = r.frm
          · rw [hkf]
            exact getKey_eraseKey_self r.frm m
          · rw [getKey_eraseKey_ne hkf]
            exact hk
      rw [h1]
      have hbk : (r.dst == k) = false := by simp [hdst hf]
      simp [getKey, hbk]
  · rw [if_neg hf]
    exact hk

theorem applyRule_self_frm {path : String} {r : Replace} {m : AttrMap}
    {res : ReplaceResult} (hf : ruleFires r path = true)
    (hdf : r.dst ≠ r.frm) :
    getKey r.frm (applyRule path r m res).1 = none := by
  unfold applyRule
  rw [if_pos hf]
  cases hg : getKey r.frm m with
  | none => exact hg
  | some v =>
    simp only [insertKey]
    rw [getKey_append]
    have h1 : getKey r.frm (eraseKey r.dst (eraseKey r.frm m)) = none := by
      rw [getKey_eraseKey_ne (Ne.symm hdf)]
      exact getKey_eraseKey_self r.frm m
    rw [h1]
    have : (r.dst == r.frm) = false := by simp [hdf]
    simp [getKey, this]

theorem applyRules_getKey_none {k path : String} {rules : List Replace} :
    ∀ {m : AttrMap} {res : ReplaceResult},
    (∀ r' ∈ rules, ruleFires r' path = true → r'.dst ≠ k) →
    getKey k m = none →
    getKey k (applyRules path rules m res).1 = none := by
  induction rules with
  | nil => intro m res _ hk; exact hk
  | cons r rest ih =>
    intro m res hr hk
    simp only [applyRules]
    exact ih (fun r' h' => hr r' (by simp [h']))
      (applyRule_getKey_none hk (hr r (by simp)))

theorem applyRules_frm_none {path : String} {rules : List Replace}
    {r : Replace} (hmem : r ∈ rules) (hf : ruleFires r path = true)
    (hno : ∀ r' ∈ rules, ruleFires r' path = true → r'.dst ≠ r.frm) :
    ∀ {m : AttrMap} {res : ReplaceResult},
    getKey r.frm (applyRules path rules m res).1 = none := by
  induction rules with
  | nil => simp at hmem
  | cons r0 rest ih =>
    intro m res
    simp only [applyRules]
    rcases List.mem_cons.mp hmem with h1 | h2
    · subst h1
      exact applyRules_getKey_none
        (fun r' h' => hno r' (by simp [h']))
        (applyRule_self_frm hf (hno r (by simp) hf))
    · exact ih h2 (fun r' h' => hno r' (by simp [h']))

theorem applyRule_noop {path : String} {r : Replace} {m : AttrMap}
    {res : ReplaceResult}
    (h : ruleFires r path = true → getKey r.frm m = none) :
    applyRule path r m res = (m, res) := by
  unfold applyRule
  by_cases hf : ruleFires r path
  · rw [if_pos hf, h hf]
  · rw [if_neg hf]

theorem applyRules_noop {path : String} {rules : List Replace} {m : AttrMap}
    {res : ReplaceResult}
    (h : ∀ r ∈ rules, ruleFires r path = true → getKey r.frm m = none) :
    applyRules path rules m res = (m, res) := by
  induction rules with
  | nil => rfl
  | cons r rest ih =>
    simp only [applyRules]
    rw [applyRule_noop (h r (by simp))]
    exact ih (fun r' h' => h r' (by simp [h']))

theorem children_transform_idem (path : String) (rules : List Replace) :
    ∀ (l : AttrMap) (res' : ReplaceResult),
    (∀ e ∈ l, ∀ inner, isM e.2 = some inner →
      (replaceMap (extendPath path e.1) rules
        (replaceMap (extendPath path e.1) rules inner ⟨0, 0⟩).1 ⟨0, 0⟩).1 =
      (replaceMap (extendPath path e.1) rules inner ⟨0, 0⟩).1) →
    (replaceChildren path rules
      (l.map (fun e => (e.1, childVal rules (extendPath path e.1) e.2)))
      res').1 =
      l.map (fun e => (e.1, childVal rules (extendPath path e.1) e.2)) := by
  intro l
  induction l with
  | nil =>
    intro res' _
    rw [List.map_nil, replaceChildren]
  | cons e rest ihl =>
    intro res' hIH
    obtain ⟨k, v⟩ := e
    have hrest : ∀ e ∈ rest, ∀ inner, isM e.2 = some inner →
        (replaceMap (extendPath path e.1) rules
          (replaceMap (extendPath path e.1) rules inner ⟨0, 0⟩).1 ⟨0, 0⟩).1 =
        (replaceMap (extendPath path e.1) rules inner ⟨0, 0⟩).1 :=
      fun e he => hIH e (by simp [he])
    rw [List.map_cons]
    cases v with
    | M inner =>
      rw [childVal_isM rules (extendPath path k) (.M inner) inner rfl]
      simp only [replaceChildren, isM]
      rw [(replace_fst_res (sizeMap ((replaceMap (extendPath path k)
        rules inner ⟨0, 0⟩).1))).1 (extendPath path k) rules _ res' ⟨0, 0⟩
        le_rfl]
      rw [hIH (k, .M inner) (by simp) inner rfl]
      rw [ihl _ hrest]
    | S s =>
      rw [childVal_leaf rules (extendPath path k) (.S s) rfl]
      simp only [replaceChildren, isM]
      rw [ihl _ hrest]
    | N s =>
      rw [childVal_leaf rules (extendPath path k) (.N s) rfl]
      simp only [replaceChildren, isM]
      rw [ihl _ hrest]
    | B s =>
      rw [childVal_leaf rules (extendPath path k) (.B s) rfl]
      simp only [replaceChildren, isM]
      rw [ihl _ hrest]
    | BOOL s =>
      rw [childVal_leaf rules (extendPath path k) (.BOOL s) rfl]
      simp only [replaceChildren, isM]
      rw [ihl _ hrest]
    | NULL s =>
      rw [childVal_leaf rules (extendPath path k) (.NULL s) rfl]
      simp only [replaceChildren, isM]
      rw [ihl _ hrest]
    | L s =>
      rw [childVal_leaf rules (extendPath path k) (.L s) rfl]
      simp only [replaceChildren, isM]
      rw [ihl _ hrest]

theorem replaceMap_idem_aux (rules : List Replace)
    (H : ∀ r ∈ rules, ∀ r' ∈ rules, ∀ p : String,
      ruleFires r p = true → ruleFires r' p = true → r.dst ≠ r'.frm) :
    ∀ n : Nat, ∀ (path : String) (m : AttrMap) (res res' : ReplaceResult),
    sizeMap m ≤ n →
    (replaceMap path rules (replaceMap path rules m res).1 res').1 =
      (replaceMap path rules m res).1 := by
  intro n
  induction n with
  | zero =>
    intro path m res res' hsz
    rw [sizeMap_le_zero hsz]
    have h0 : ∀ res0 : ReplaceResult, (replaceMap path rules [] res0).1 = [] := by
      intro res0
      rw [replaceMap]
      have h1 : (applyRules path rules [] res0).1 = [] :=
        sizeMap_le_zero (le_trans (applyRules_size path rules [] res0)
          (by simp [sizeMap]))
      rw [h1, replaceChildren]
    rw [h0 res, h0 res']
  | succ n ih =>
    intro path m res res' hsz
    have hout : (replaceMap path rules m res).1 =
        ((applyRules path rules m res).1).map
          (fun e => (e.1, childVal rules (extendPath path e.1) e.2)) := by
      rw [replaceMap]
      exact replaceChildren_fst_eq path rules _ _
    have habsent : ∀ r ∈ rules, ruleFires r path = true →
        getKey r.frm (replaceMap path rules m res).1 = none := by
      intro r hr hf
      rw [hout]
      exact getKey_map_none (fun a b => childVal rules (extendPath path a) b)
        (applyRules_frm_none hr hf
          (fun r' hr' hf' => H r' hr' r hr path hf' hf))
    have hnoop : applyRules path rules (replaceMap path rules m res).1 res' =
        ((replaceMap path rules m res).1, res') :=
      applyRules_noop (fun r hr hf => habsent r hr hf)
    conv_lhs => rw [replaceMap]
    rw [hnoop]
    rw [hout]
    refine children_transform_idem path rules _ res' ?_
    intro e he inner hin
    have hszin : sizeMap inner ≤ n := by
      obtain ⟨k, v⟩ := e
      have h1 : sizeVal v ≤ sizeMap (applyRules path rules m res).1 :=
        sizeVal_le_of_mem he
      have h2 := applyRules_size path rules m res
      have h3 := isM_size hin
      simp only at h3
      omega
    exact ih (extendPath path e.1) inner ⟨0, 0⟩ ⟨0, 0⟩ hszin

/-! ## Claim theorems -/

/-- C1 (counterexample): contrary to the claim, a field newly inserted
under a rule's destination name IS seen by subsequently-evaluated rules
at the same level within one pass: `[a>b, b>c]` applied to `{a: 1}`
chains to `{c: 1}` with 2 replacements, not `{b: 1}` with 1. -/
theorem C1_counterexample :
    replaceMap "" [⟨true, "", "a", "b"⟩, ⟨true, "", "b", "c"⟩]
      [("a", AttributeValue.N "1")] ⟨0, 0⟩ =
      ([("c", AttributeValue.N "1")], ⟨2, 0⟩) ∧
    (([("c", AttributeValue.N "1")], (⟨2, 0⟩ : ReplaceResult)) ≠
      ([("b", AttributeValue.N "1")], ⟨1, 0⟩)) := by
  constructor
  · exact replaceMap_eval 4 (by simp [sizeMap, sizeVal]) rfl
  · intro hcontra
    have : (2 : Nat) = 1 := congrArg (fun p => p.2.replacements) hcontra
    omega

/-- C1 (amended): within a single rewrite pass at one map level, a field
newly inserted under a rule's destination name IS seen by
subsequently-evaluated rules at that level: for the rule list
`[a>b, b>c]` applied to a map containing only field `a`, both rules apply
in the single pass, yielding `{c: value}` with two replacements, and a
second pass has nothing left to do. -/
theorem C1_amended (a b c n : String) (res : ReplaceResult)
    (h1 : c ≠ a) (h2 : c ≠ b) :
    replaceMap "" [⟨true, "", a, b⟩, ⟨true, "", b, c⟩]
      [(a, AttributeValue.N n)] res =
      ([(c, AttributeValue.N n)],
       ⟨res.replacements + 2, res.overwrites⟩) ∧
    replaceMap "" [⟨true, "", a, b⟩, ⟨true, "", b, c⟩]
      [(c, AttributeValue.N n)] res = ([(c, AttributeValue.N n)], res) := by
  have hca : (c == a) = false := by simp [h1]
  have hcb : (c == b) = false := by simp [h2]
  constructor
  · rw [replaceMap]
    simp [applyRules, applyRule, ruleFires, getKey, eraseKey, insertKey,
      replaceChildren, isM]
  · rw [replaceMap]
    simp [applyRules, applyRule, ruleFires, getKey, hca, hcb,
      replaceChildren, isM]

/-- C1 witness: the amended behavior at the concrete instance of the
claim (`a`, `b`, `c` distinct): one pass takes `{a: 1}` to `{c: 1}` with
two replacements, and a second pass leaves `{c: 1}` unchanged. -/
theorem C1_witness :
    ("c" ≠ "a") ∧ ("c" ≠ "b") ∧
    replaceMap "" [⟨true, "", "a", "b"⟩, ⟨true, "", "b", "c"⟩]
      [("a", AttributeValue.N "1")] ⟨0, 0⟩ =
      ([("c", AttributeValue.N "1")], ⟨2, 0⟩) ∧
    replaceMap "" [⟨true, "", "a", "b"⟩, ⟨true, "", "b", "c"⟩]
      [("c", AttributeValue.N "1")] ⟨0, 0⟩ =
      ([("c", AttributeValue.N "1")], ⟨0, 0⟩) := by
  have h := C1_amended "a" "b" "c" "1" ⟨0, 0⟩ (by decide) (by decide)
  exact ⟨by decide, by decide, h.1, h.2⟩

/-- C2: the conditional write request carries the full mutated record as
payload; its condition is the `" AND "`-join of one equality fragment
`#a{i} = :a{i}` per field of the original record, with the placeholder
names/values bound position-by-position to the original fields through
the distinct indices `0, 1, ..., n-1`; when the original record has zero
fields no condition expression is attached. -/
theorem C2_put_request (old item : AttrMap) :
    (put old item).item = item ∧
    (put old item).conditionExpr =
      (if old.isEmpty then none
       else some (String.intercalate " AND "
         ((List.range' 0 old.length).map condPiece))) ∧
    (put old item).exprAttrNames.map Prod.snd = old.map Prod.fst ∧
    (put old item).exprAttrValues.map Prod.snd = old.map Prod.snd ∧
    (put old item).exprAttrNames.map Prod.fst =
      (List.range' 0 old.length).map (fun j => "#a" ++ Nat.repr j) ∧
    (put old item).exprAttrValues.map Prod.fst =
      (List.range' 0 old.length).map (fun j => ":a" ++ Nat.repr j) := by
  have hp := condTriples_parts old 0
  have hf := put_foldl old [] [] [] 0
  refine ⟨rfl, ?_, ?_, ?_, ?_, ?_⟩
  · simp only [put, hf, List.nil_append]
    rw [hp.1]
    cases old with
    | nil => simp
    | cons kv rest => simp [List.range'_succ]
  · simp only [put, hf, List.nil_append, hp.2.2.2.1]
  · simp only [put, hf, List.nil_append, hp.2.2.2.2]
  · simp only [put, hf, List.nil_append, hp.2.1]
  · simp only [put, hf, List.nil_append, hp.2.2.1]

/-- C3: at every map visited during the rewrite, a root rule fires
exactly when the dotted path equals the rule's prefix, and a non-root
rule fires exactly when the path ends with the prefix as a raw string
suffix (not segment-aware): prefix `"user.name"` fires at paths
`"user.name"`, `"a.user.name"`, and also `"xuser.name"`, where the
rename is actually performed by the rewrite engine. -/
theorem C3_fires_iff :
    (∀ r path, ruleFires r path =
      (if r.root then path == r.pfx else strEndsWith path r.pfx)) ∧
    ruleFires ⟨false, "user.name", "f", "t"⟩ "user.name" = true ∧
    ruleFires ⟨false, "user.name", "f", "t"⟩ "a.user.name" = true ∧
    ruleFires ⟨false, "user.name", "f", "t"⟩ "xuser.name" = true ∧
    replaceMap "" [⟨false, "user.name", "f", "t"⟩]
      [("xuser", .M [("name", .M [("f", .N "1")])])] ⟨0, 0⟩ =
      ([("xuser", .M [("name", .M [("t", .N "1")])])], ⟨1, 0⟩) := by
  refine ⟨?_, by decide, by decide, by decide,
    replaceMap_eval 10 (by simp [sizeMap, sizeVal]) rfl⟩
  intro r path
  unfold ruleFires
  cases hroot : r.root with
  | true => simp
  | false =>
    simp only [Bool.not_false, Bool.true_and, if_false, Bool.false_eq_true]
    cases hbeq : (path == r.pfx) with
    | true =>
      have : path = r.pfx := by
        exact eq_of_beq hbeq
      subst this
      simp [strEndsWith_refl]
    | false => simp

/-- C4: writes are applied strictly sequentially in dirty-list order; on
the first failure no further writes are attempted (exactly
`pre.length + 1` put calls are issued) and the reported prior-success
count is exactly the number of successful writes before the failure; a
conditional-check failure is reported as concurrent modification,
distinctly from any other write error; with no failure, all writes are
attempted and counted. -/
theorem C4_sequential_halt (pre rest : List (Option PutError)) (msg : String)
    (h : ∀ x ∈ pre, x = none) :
    runWrites 0 (pre ++ some (.conditionalCheckFailed msg) :: rest) =
      (.conflictHalt pre.length, pre.length + 1) ∧
    runWrites 0 (pre ++ some (.other msg) :: rest) =
      (.errorHalt pre.length msg, pre.length + 1) ∧
    runWrites 0 pre = (.success pre.length, pre.length) := by
  refine ⟨?_, ?_, ?_⟩
  · rw [runWrites_halt pre rest _ 0 h]
    simp
  · rw [runWrites_halt pre rest _ 0 h]
    simp
  · rw [runWrites_success pre 0 h]
    simp

/-- C4 witness: writes 1 and 2 succeed, write 3 fails; the reported
prior-success count is exactly 2 and exactly 3 put calls are attempted,
with the conflict case reported distinctly. -/
theorem C4_witness :
    (∀ x ∈ ([none, none] : List (Option PutError)), x = none) ∧
    runWrites 0 ([none, none] ++ some (.conditionalCheckFailed "cc") :: [none]) =
      (.conflictHalt 2, 3) ∧
    runWrites 0 ([none, none] ++ some (.other "boom") :: [none]) =
      (.errorHalt 2 "boom", 3) :=
  ⟨by decide,
   (C4_sequential_halt [none, none] [none] "cc" (by decide)).1,
   (C4_sequential_halt [none, none] [none] "boom" (by decide)).2.1⟩

/-- C5 (counterexample): contrary to the claim, a nested map's dotted
path CAN be empty — an empty top-level field key contributes an empty
path segment — and then an empty-prefix root rule fires inside the
nested map: on `{"": {a: 1}}` the rule `a>b` renames inside the nested
map, performing 1 replacement instead of the claimed 0. -/
theorem C5_counterexample :
    replaceMap "" [⟨true, "", "a", "b"⟩]
      [("", AttributeValue.M [("a", AttributeValue.N "1")])] ⟨0, 0⟩ =
      ([("", AttributeValue.M [("b", AttributeValue.N "1")])], ⟨1, 0⟩) ∧
    (1 : Nat) ≠ 0 :=
  ⟨replaceMap_eval 8 (by simp [sizeMap, sizeVal]) rfl, by decide⟩

/-- C5 (amended): a root rule with empty prefix whose destination name
is non-empty, applied to a record all of whose top-level keys are
non-empty, fires only at the top-level map: every nested map is then
reached with a non-empty dotted path, the empty-prefix exact-match test
fails there, and the whole rewrite coincides with the top-level rule
pass alone. -/
theorem C5_amended (r : Replace) (m : AttrMap) (res : ReplaceResult)
    (hroot : r.root = true) (hpfx : r.pfx = "") (hdst : r.dst ≠ "")
    (hkeys : ∀ e ∈ m, e.1 ≠ "") :
    replaceMap "" [r] m res = applyRules "" [r] m res := by
  rw [replaceMap]
  have hsingle : applyRules "" [r] m res = applyRule "" r m res := by
    simp [applyRules]
  have hkeys1 : ∀ e ∈ (applyRules "" [r] m res).1, e.1 ≠ "" := by
    intro e he
    rw [hsingle] at he
    rcases mem_applyRule he with h1 | h2
    · exact hkeys e h1
    · rw [h2]
      exact hdst
  -- the child loop is then the identity: each child path is a non-empty key
  have hchildren : ∀ l res', (∀ e ∈ l, e.1 ≠ "") →
      replaceChildren "" [r] l res' = (l, res') := by
    intro l
    induction l with
    | nil =>
      intro res' _
      rw [replaceChildren]
    | cons e rest ihl =>
      intro res' hk
      obtain ⟨k, v⟩ := e
      have hk1 : k ≠ "" := hk (k, v) (by simp)
      have hext : extendPath "" k = k := rfl
      have hrest : ∀ e ∈ rest, e.1 ≠ "" := fun e he => hk e (by simp [he])
      cases v with
      | M inner =>
        simp only [replaceChildren, isM, hext]
        rw [(deepNoop r hroot hpfx (sizeMap inner)).1 k inner res' le_rfl hk1]
        rw [ihl res' hrest]
      | S s =>
        simp only [replaceChildren, isM]
        rw [ihl res' hrest]
      | N s =>
        simp only [replaceChildren, isM]
        rw [ihl res' hrest]
      | B s =>
        simp only [replaceChildren, isM]
        rw [ihl res' hrest]
      | BOOL s =>
        simp only [replaceChildren, isM]
        rw [ihl res' hrest]
      | NULL s =>
        simp only [replaceChildren, isM]
        rw [ihl res' hrest]
      | L s =>
        simp only [replaceChildren, isM]
        rw [ihl res' hrest]
  rw [hchildren (applyRules "" [r] m res).1 (applyRules "" [r] m res).2 hkeys1]

/-- C5 witness: the amended behavior on the record
`{x: {a: 1}, a: 2}` with the empty-prefix root rule `a>b` — the rewrite
equals the top-level rule pass alone (which renames only the top-level
`a`). -/
theorem C5_witness :
    (∀ e ∈ ([("x", AttributeValue.M [("a", AttributeValue.N "1")]),
        ("a", AttributeValue.N "2")] : AttrMap), e.1 ≠ "") ∧
    replaceMap "" [⟨true, "", "a", "b"⟩]
      [("x", AttributeValue.M [("a", AttributeValue.N "1")]),
       ("a", AttributeValue.N "2")] ⟨0, 0⟩ =
    applyRules "" [⟨true, "", "a", "b"⟩]
      [("x", AttributeValue.M [("a", AttributeValue.N "1")]),
       ("a", AttributeValue.N "2")] ⟨0, 0⟩ :=
  ⟨by intro e he; simp at he; rcases he with h | h <;> simp [h],
   C5_amended ⟨true, "", "a", "b"⟩ _ _ rfl rfl (by decide)
     (by intro e he; simp at he; rcases he with h | h <;> simp [h])⟩

/-- C6 (counterexample): contrary to the claim, a rule directive whose
right side alone is wildcard-marked does not fail with the "unsupported"
error: `"a>*b"` fails attribute validation first and is reported as an
invalid attribute naming `"*b"`. -/
theorem C6_counterexample :
    fromStr "a>*b" = .error (.InvalidAttribute "*b") ∧
    (Except.error (ReplaceParseError.InvalidAttribute "*b") :
      Except ReplaceParseError Replace) ≠ .error .Unsupported := by
  refine ⟨rfl, ?_⟩
  intro hcontra
  simp at hcontra

/-- C6 (amended): when only the left side is wildcard-marked, parsing
fails with the "unsupported" error; when only the right side is
wildcard-marked, parsing instead fails with the invalid-attribute error
naming the right fragment (assuming the left side passes attribute
validation, which is checked first). -/
theorem C6_amended (s b a : String)
    (hs : splitOnceStr s '>' = some (b, a)) :
    (strStartsWith b "*" = true → strStartsWith a "*" = false →
      fromStr s = .error .Unsupported) ∧
    (strStartsWith b "*" = false → strStartsWith a "*" = true →
      validateAttributeName b = true →
      fromStr s = .error (.InvalidAttribute a)) := by
  constructor
  · intro h1 h2
    unfold fromStr
    rw [hs]
    dsimp only
    rw [if_pos h1, if_neg (by simp [h2])]
  · intro h1 h2 hvb
    unfold fromStr
    rw [hs]
    dsimp only
    rw [if_neg (by simp [h1])]
    unfold fromStrTail
    rw [if_neg (by simp [hvb]), if_pos (by simp [validate_star_false h2])]

/-- C6 witness: the amended behavior at `"*a>b"` (left-only wildcard →
Unsupported) and `"a>*b"` (right-only wildcard → InvalidAttribute). -/
theorem C6_witness :
    splitOnceStr "*a>b" '>' = some ("*a", "b") ∧
    strStartsWith "*a" "*" = true ∧ strStartsWith "b" "*" = false ∧
    fromStr "*a>b" = .error .Unsupported ∧
    splitOnceStr "a>*b" '>' = some ("a", "*b") ∧
    strStartsWith "a" "*" = false ∧ strStartsWith "*b" "*" = true ∧
    validateAttributeName "a" = true ∧
    fromStr "a>*b" = .error (.InvalidAttribute "*b") :=
  ⟨rfl, rfl, rfl, (C6_amended "*a>b" "*a" "b" rfl).1 rfl rfl,
   rfl, rfl, rfl, rfl, (C6_amended "a>*b" "a" "*b" rfl).2 rfl rfl rfl⟩

/-- C7 (counterexample): contrary to the claim, a successfully parsed
rule's `from` may be empty and its destination may contain a dot:
`"a.>a.b.c"` parses to prefix `"a"`, `from = ""`, `to = "b.c"`. -/
theorem C7_counterexample :
    fromStr "a.>a.b.c" = .ok ⟨true, "a", "", "b.c"⟩ ∧
    ("" : String).data = [] ∧
    "b.c".data.contains '.' = true :=
  ⟨rfl, rfl, by decide⟩

/-- C7 (amended): for every successfully parsed rule, `from` and the
destination name consist only of characters of the attribute-name
grammar `[A-Za-z0-9_.-]`, and `from` never contains a dot; but either
may be empty, and the destination may contain dots (when the directive's
left side ends in a dot, or its right side extends the prefix by more
than one segment). -/
theorem C7_amended (s : String) (r : Replace) (h : fromStr s = .ok r) :
    r.frm.data.all isNameChar = true ∧
    r.dst.data.all isNameChar = true ∧
    r.frm.data.contains '.' = false := by
  unfold fromStr at h
  cases hs : splitOnceStr s '>' with
  | none =>
    rw [hs] at h
    exact absurd h (by simp)
  | some p =>
    rw [hs] at h
    obtain ⟨b0, a0⟩ := p
    dsimp only at h
    by_cases hb : strStartsWith b0 "*" = true
    · rw [if_pos hb] at h
      by_cases ha : strStartsWith a0 "*" = true
      · rw [if_pos ha] at h
        exact fromStrTail_ok h
      · rw [if_neg ha] at h
        exact absurd h (by simp)
    · rw [if_neg hb] at h
      exact fromStrTail_ok h

/-- C7 witness: the amended invariants at the simple directive `"a>b"`. -/
theorem C7_witness :
    fromStr "a>b" = .ok ⟨true, "", "a", "b"⟩ ∧
    ("a" : String).data.all isNameChar = true ∧
    ("b" : String).data.all isNameChar = true ∧
    ("a" : String).data.contains '.' = false :=
  ⟨rfl,
   (C7_amended "a>b" ⟨true, "", "a", "b"⟩ rfl).1,
   (C7_amended "a>b" ⟨true, "", "a", "b"⟩ rfl).2.1,
   (C7_amended "a>b" ⟨true, "", "a", "b"⟩ rfl).2.2⟩

/-- C8: the rewrite is idempotent on the record under the stated
proviso: whenever no rule's destination name equals another (or the
same) rule's source name at any level where both rules fire, applying
the rewrite twice yields the same mutated record as applying it once. -/
theorem C8_idempotent (rules : List Replace) (m : AttrMap)
    (H : ∀ r ∈ rules, ∀ r' ∈ rules, ∀ p : String,
      ruleFires r p = true → ruleFires r' p = true → r.dst ≠ r'.frm) :
    (replaceMap "" rules (replaceMap "" rules m ⟨0, 0⟩).1 ⟨0, 0⟩).1 =
      (replaceMap "" rules m ⟨0, 0⟩).1 :=
  replaceMap_idem_aux rules H (sizeMap m) "" m ⟨0, 0⟩ ⟨0, 0⟩ le_rfl

/-- C8 witness: idempotence at the record `{a: 1}` with the single root
rule `a>b` (whose destination differs from every source name). -/
theorem C8_witness :
    (∀ r ∈ [(⟨true, "", "a", "b"⟩ : Replace)],
      ∀ r' ∈ [(⟨true, "", "a", "b"⟩ : Replace)], ∀ p : String,
      ruleFires r p = true → ruleFires r' p = true → r.dst ≠ r'.frm) ∧
    (replaceMap "" [⟨true, "", "a", "b"⟩]
      (replaceMap "" [⟨true, "", "a", "b"⟩]
        [("a", AttributeValue.N "1")] ⟨0, 0⟩).1 ⟨0, 0⟩).1 =
      (replaceMap "" [⟨true, "", "a", "b"⟩]
        [("a", AttributeValue.N "1")] ⟨0, 0⟩).1 := by
  have hH : ∀ r ∈ [(⟨true, "", "a", "b"⟩ : Replace)],
      ∀ r' ∈ [(⟨true, "", "a", "b"⟩ : Replace)], ∀ p : String,
      ruleFires r p = true → ruleFires r' p = true → r.dst ≠ r'.frm := by
    intro r hr r' hr' p hf hf'
    rw [List.mem_singleton] at hr hr'
    subst hr
    subst hr'
    decide
  exact ⟨hH, C8_idempotent [⟨true, "", "a", "b"⟩]
    [("a", AttributeValue.N "1")] hH⟩

/-- C9: renaming field `a` to existing field `b` with a root rule on
`{a: 1, b: 2}` yields `{b: 1}` with replacement count 1 and overwrite
count 1; in general one loop iteration of the rewrite increments the
overwrite counter exactly when the insertion at the destination name
displaces a previously existing value, increments the replacement
counter exactly when the rule fires and the source field is present, and
otherwise leaves map and counters unchanged. -/
theorem C9_overwrite_counting :
    (replaceMap "" [⟨true, "", "a", "b"⟩]
      [("a", .N "1"), ("b", .N "2")] ⟨0, 0⟩ = ([("b", .N "1")], ⟨1, 1⟩)) ∧
    (∀ path r m res v, ruleFires r path = true → getKey r.frm m = some v →
      (applyRule path r m res).2 =
        ⟨res.replacements + 1,
         res.overwrites +
           (if (getKey r.dst (eraseKey r.frm m)).isSome then 1 else 0)⟩) ∧
    (∀ path r m res, ruleFires r path = false →
      applyRule path r m res = (m, res)) ∧
    (∀ path r m res, getKey r.frm m = none →
      applyRule path r m res = (m, res)) := by
  refine ⟨replaceMap_eval 6 (by simp [sizeMap, sizeVal]) rfl, ?_, ?_, ?_⟩
  · intro path r m res v hf hg
    simp [applyRule, hf, hg, insertKey]
  · intro path r m res hf
    simp [applyRule, hf]
  · intro path r m res hg
    unfold applyRule
    by_cases hf : ruleFires r path <;> simp [hf, hg]

/-- C9 witness: the general part instantiated on `{a: 1, b: 2}` with the
root rule renaming `a` to `b`. -/
theorem C9_witness :
    ruleFires ⟨true, "", "a", "b"⟩ "" = true ∧
    getKey "a" [("a", .N "1"), ("b", .N "2")] = some (.N "1") ∧
    (applyRule "" ⟨true, "", "a", "b"⟩
      [("a", .N "1"), ("b", .N "2")] ⟨0, 0⟩).2 = ⟨1, 1⟩ := by
  refine ⟨rfl, rfl, ?_⟩
  have h := C9_overwrite_counting.2.1 "" ⟨true, "", "a", "b"⟩
    [("a", .N "1"), ("b", .N "2")] ⟨0, 0⟩ (.N "1") rfl rfl
  rw [h]
  rfl

/-- C10: the rewrite is total — on every finitely nested record the
recursion of `fn replace` terminates, reaching the result within a fuel
budget bounded by the record's size (each recursive call descends into a
strictly smaller nested map). -/
theorem C10_terminates (path : String) (rules : List Replace) (m : AttrMap)
    (res : ReplaceResult) :
    replaceMapF (2 * sizeMap m + 2) path rules m res =
      some (replaceMap path rules m res) :=
  (replaceF_complete _).1 path rules m res le_rfl

end DynamodbBulkEdit
